import Mathlib

/-!
Verification of the agent activation scheduler specification (spec.md)
against a shallow embedding of the scheduler.

The scheduler implementation (`mesa/time.py`) is not part of the source
excerpt; only its test suite (`tests/test_time.py`) is.  Every definition
below whose doc comment starts with `Modelled from the spec:` is therefore a
faithful rendering of the spec's own description of the missing code
(sections 3-5 of spec.md), checked where possible against the behavior the
test suite demands.

Modelling choices:
  * Agent handles are identified by their unique identifier, a `Nat`.
  * The model's random source (`random.shuffle`) is an oracle
    `R : Nat → List Nat → List Nat`: call number `i` reorders a list; a
    call counter `rngIdx` in the scheduler state counts shuffle calls
    (the analogue of `mock.Mock().shuffle.call_count` in the tests).
  * Agent behaviors act on the model-visible state (`World`: the shared
    registry plus the model log) and may fail with an error code; failure
    returns the mutated-so-far world together with `some errorCode`,
    matching Python exception semantics where in-place mutations performed
    before the raise persist.
  * The tick counters (`steps`, `time`) live outside `World`: behaviors
    cannot touch them, as in the source where they are scheduler-internal.
-/

/-- A log entry of the mock model's log: agents log `"{id}_{stage}"` in
staged activation, the model hook logs its name, and the primary `step`
behavior logs the bare unique id. -/
inductive Entry where
  | stageEntry (agentId : Nat) (stageName : Nat)
  | hookEntry (name : Nat)
  | stepped (agentId : Nat)
deriving DecidableEq, Repr

/-- Modelled from the spec: the model-visible shared state an agent behavior
can read and write: the scheduler's ordered registry of agent identifiers
and the model's append-only log. -/
structure World where
  agents : List Nat
  log : List Entry
deriving DecidableEq, Repr

/-- A behavior entry point: invoked on the current world, it returns the
mutated world and `none` on success or `some e` when it raises error `e`. -/
def Beh : Type := World → World × Option Nat

/-- Modelled from the spec: scheduler state shared by the Sequential,
Randomized, Staged and Simultaneous policies — the registry-plus-log world,
the TickCounter (`steps` ticks completed, `time` logical clock), and the
count of shuffle calls made to the model's random source so far. -/
structure Sched where
  world : World
  steps : Nat
  time : Nat
  rngIdx : Nat
deriving DecidableEq, Repr

/-- Modelled from the spec: a freshly constructed scheduler — empty
registry, empty log, `steps = time = 0`. -/
def initSched : Sched := ⟨⟨[], []⟩, 0, 0, 0⟩

/-- Error kinds of spec.md section 7 (behavior failures carry a code). -/
inductive SchedError where
  | duplicateAgent
  | agentNotFound
deriving DecidableEq, Repr

/-- Modelled from the spec: `add(agent)` inserts at the end of the current
order and fails with DuplicateAgent if the identifier is already present. -/
def Sched.add (s : Sched) (a : Nat) : Except SchedError Sched :=
  if a ∈ s.world.agents then .error .duplicateAgent
  else .ok { s with world := { s.world with agents := s.world.agents ++ [a] } }

/-- Modelled from the spec: `remove(agent)` deletes the identifier and fails
with AgentNotFound for an unregistered identifier. -/
def Sched.remove (s : Sched) (a : Nat) : Except SchedError Sched :=
  if a ∈ s.world.agents then
    .ok { s with world := { s.world with agents := s.world.agents.erase a } }
  else .error .agentNotFound

/-- Modelled from the spec: constructor-time registration of an iterable of
agents behaves like calling `add` for each agent in order. -/
def Sched.addAll (s : Sched) : List Nat → Except SchedError Sched
  | [] => .ok s
  | a :: rest => do (← s.add a).addAll rest

/-- Modelled from the spec: the core traversal shared by the Sequential,
Randomized and Staged policies — visit a snapshot of the membership order,
re-check live membership of each visited identifier against the current
registry (skipping agents removed after the snapshot was taken), invoke the
behavior of each surviving agent, and stop at the first raised error. -/
def runAgents (beh : Nat → Beh) : List Nat → World → World × Option Nat
  | [], w => (w, none)
  | a :: rest, w =>
    if a ∈ w.agents then
      match beh a w with
      | (w', some e) => (w', some e)
      | (w', none) => runAgents beh rest w'
    else runAgents beh rest w

/-- Modelled from the spec: the Sequential ("Base") policy `step()` —
snapshot the current registry order, invoke each agent's primary behavior
once in snapshot order with a live membership check, and increment the
TickCounter by one only after all agents are processed exception-free. -/
def baseStep (beh : Nat → Beh) (s : Sched) : Sched × Option Nat :=
  match runAgents beh s.world.agents s.world with
  | (w, some e) => ({ s with world := w }, some e)
  | (w, none) =>
    ({ world := w, steps := s.steps + 1, time := s.time + 1, rngIdx := s.rngIdx }, none)

/-- Modelled from the spec: the Randomized policy `step()` — shuffle the
registry in place (destructive reorder, consuming one call of the model's
random source), then behave identically to Sequential using the new
order. -/
def randomStep (R : Nat → List Nat → List Nat) (beh : Nat → Beh) (s : Sched) :
    Sched × Option Nat :=
  baseStep beh
    { s with
      world := { s.world with agents := R s.rngIdx s.world.agents }
      rngIdx := s.rngIdx + 1 }

/-- A stage descriptor of the Staged policy: either an agent-level behavior
name, invoked on every agent, or a model-level hook, invoked once per tick. -/
inductive Stage where
  | agentStage (name : Nat)
  | modelStage (name : Nat)
deriving DecidableEq, Repr

/-- Modelled from the spec: run the configured stage list in order — a
model-level stage invokes the model hook once; an agent-level stage
snapshots the current membership order and invokes the named behavior on
each agent still live; an error aborts the remaining stages. -/
def runStages (beh : Nat → Nat → Beh) (hook : Nat → Beh) :
    List Stage → World → World × Option Nat
  | [], w => (w, none)
  | Stage.modelStage n :: rest, w =>
    match hook n w with
    | (w', some e) => (w', some e)
    | (w', none) => runStages beh hook rest w'
  | Stage.agentStage n :: rest, w =>
    match runAgents (beh n) w.agents w with
    | (w', some e) => (w', some e)
    | (w', none) => runStages beh hook rest w'

/-- Modelled from the spec: the Staged policy `step()` — if configured to
shuffle, shuffle the registry order once (before the first stage, never
between stages); run every stage in the configured list; increment the
TickCounter by one only after all stages complete exception-free. -/
def stagedStep (R : Nat → List Nat → List Nat) (doShuffle : Bool)
    (stages : List Stage) (beh : Nat → Nat → Beh) (hook : Nat → Beh)
    (s : Sched) : Sched × Option Nat :=
  let w0 : World :=
    if doShuffle then { s.world with agents := R s.rngIdx s.world.agents } else s.world
  let idx0 : Nat := if doShuffle then s.rngIdx + 1 else s.rngIdx
  match runStages beh hook stages w0 with
  | (w, some e) => ({ world := w, steps := s.steps, time := s.time, rngIdx := idx0 }, some e)
  | (w, none) =>
    ({ world := w, steps := s.steps + 1, time := s.time + 1, rngIdx := idx0 }, none)

/-- Modelled from the spec: the Simultaneous policy `step()` — two full
passes over one snapshot of the current membership, in the same order: pass
one invokes every agent's compute ("step") behavior, pass two invokes every
agent's commit ("advance") behavior, with agents removed between the passes
skipped in pass two; the TickCounter increments once after both passes. -/
def simultaneousStep (stepBeh advBeh : Nat → Beh) (s : Sched) : Sched × Option Nat :=
  match runAgents stepBeh s.world.agents s.world with
  | (w, some e) => ({ s with world := w }, some e)
  | (w, none) =>
    match runAgents advBeh s.world.agents w with
    | (w', some e) => ({ s with world := w' }, some e)
    | (w', none) =>
      ({ world := w', steps := s.steps + 1, time := s.time + 1, rngIdx := s.rngIdx }, none)

/-- A pure logging behavior: append one entry computed from the agent's
identifier and succeed, never touching the registry. -/
def logBeh (f : Nat → Entry) (a : Nat) : Beh :=
  fun w => ({ w with log := w.log ++ [f a] }, none)

/-- The test suite's logging stage behavior (`MockAgent.stage_one` /
`stage_two` without the kill option): append `"{id}_{stage}"` to the model
log and succeed. -/
def behLogStage (st : Nat) : Nat → Beh :=
  logBeh (fun a => Entry.stageEntry a st)

/-- The test suite's model hook (`MockModel.model_stage`): append the hook
name to the model log and succeed. -/
def hookLog (n : Nat) : Beh :=
  fun w => ({ w with log := w.log ++ [Entry.hookEntry n] }, none)

/-- The test suite's primary behavior (`MockAgent.step` without the kill
option): append the bare unique id to the model log and succeed. -/
def behLogStep : Nat → Beh :=
  logBeh Entry.stepped

/-- The test suite's killing behavior (`MockAgent.step` with
`enable_kill_other_agent`): remove every other agent from the registry, then
log the bare unique id. -/
def behKillStep (a : Nat) : Beh :=
  fun w =>
    ({ agents := w.agents.filter (fun b => b = a),
       log := w.log ++ [Entry.stepped a] }, none)

/-- A behavior that raises error code `e` without mutating the world. -/
def behFail (e : Nat) (_a : Nat) : Beh := fun w => (w, some e)

/-- Run `n` ticks of the step function `f`, stopping at the first error. -/
def iterateTicks {α : Type} (f : α → α × Option Nat) : Nat → α → α × Option Nat
  | 0, s => (s, none)
  | n + 1, s =>
    match f s with
    | (s', some e) => (s', some e)
    | (s', none) => iterateTicks f n s'

/-- Modelled from the spec: scheduler state of the Randomized-by-Type
policy — the top-level registry, the type partition (an association list
from agent-type tag to that type's sub-registry, in insertion order of
first-seen type), the model log, the TickCounter and the shuffle-call
counter. -/
structure SchedBT where
  agents : List Nat
  byType : List (Nat × List Nat)
  log : List Entry
  steps : Nat
  time : Nat
  rngIdx : Nat
deriving DecidableEq, Repr

/-- Modelled from the spec: a freshly constructed by-type scheduler. -/
def initSchedBT : SchedBT := ⟨[], [], [], 0, 0, 0⟩

/-- Modelled from the spec: place agent `a` of type `t` into the type
partition — appended to its type's existing sub-registry, or into a fresh
sub-registry appended after all currently known types when `t` is seen for
the first time (so type iteration order is insertion order of first-seen
type). -/
def insertByType (t a : Nat) : List (Nat × List Nat) → List (Nat × List Nat)
  | [] => [(t, [a])]
  | (t', l) :: rest =>
    if t' = t then (t', l ++ [a]) :: rest else (t', l) :: insertByType t a rest

/-- Modelled from the spec: delete agent `a` of type `t` from its type's
sub-registry in the partition. -/
def eraseByType (t a : Nat) : List (Nat × List Nat) → List (Nat × List Nat)
  | [] => []
  | (t', l) :: rest =>
    if t' = t then (t', l.erase a) :: rest else (t', l) :: eraseByType t a rest

/-- Modelled from the spec: by-type `add(agent)` — fails with DuplicateAgent
if already present, otherwise appends to the top-level registry and to the
partition of the agent's type (`ty` maps identifiers to type tags). -/
def SchedBT.add (ty : Nat → Nat) (s : SchedBT) (a : Nat) : Except SchedError SchedBT :=
  if a ∈ s.agents then .error .duplicateAgent
  else .ok { s with agents := s.agents ++ [a], byType := insertByType (ty a) a s.byType }

/-- Modelled from the spec: by-type `remove(agent)` — fails with
AgentNotFound if absent, otherwise deletes the identifier from both the
top-level registry and its type's partition. -/
def SchedBT.remove (ty : Nat → Nat) (s : SchedBT) (a : Nat) : Except SchedError SchedBT :=
  if a ∈ s.agents then
    .ok { s with agents := s.agents.erase a, byType := eraseByType (ty a) a s.byType }
  else .error .agentNotFound

/-- Modelled from the spec: constructor-time registration for the by-type
scheduler, one `add` per agent of the iterable, in order. -/
def SchedBT.addAll (ty : Nat → Nat) (s : SchedBT) : List Nat → Except SchedError SchedBT
  | [] => .ok s
  | a :: rest => do SchedBT.addAll ty (← s.add ty a) rest

/-- Modelled from the spec: `get_type_count(type)` — the current membership
size of that type's partition. -/
def SchedBT.getTypeCount (s : SchedBT) (t : Nat) : Nat :=
  ((s.byType.lookup t).getD []).length

/-- A by-type behavior acts on the model log only (the mock agents of the
by-type tests log and never mutate the registry); it may raise. -/
def BehL : Type := List Entry → List Entry × Option Nat

/-- Activate one type's members in sub-registry order, stopping at the
first raised error. -/
def runType (behL : Nat → BehL) : List Nat → List Entry → List Entry × Option Nat
  | [], log => (log, none)
  | a :: rest, log =>
    match behL a log with
    | (log', some e) => (log', some e)
    | (log', none) => runType behL rest log'

/-- Replace type `t`'s sub-registry in the partition, keeping the storage
order of the types (no effect when `t` is not a registered type). -/
def setPart (t : Nat) (sub : List Nat) : List (Nat × List Nat) → List (Nat × List Nat)
  | [] => []
  | (t', l) :: rest =>
    if t' = t then (t', sub) :: rest else (t', l) :: setPart t sub rest

/-- Modelled from the spec and the by-type shuffle test: the per-type loop
of by-type `step()` — visit the types of the (already shuffled) visit list
in order; for each, shuffle that type's sub-registry (one call of the
random source, persisted into the partition) and activate all its members'
primary behavior before moving to the next type.  Returns the updated
partition, log, shuffle-call counter, and the first error if any. -/
def stepKeys (R : Nat → List Nat → List Nat) (behL : Nat → BehL) :
    Nat → List Nat → List (Nat × List Nat) → List Entry →
    List (Nat × List Nat) × List Entry × Nat × Option Nat
  | idx, [], bt, log => (bt, log, idx, none)
  | idx, t :: ks, bt, log =>
    match runType behL (R idx ((bt.lookup t).getD [])) log with
    | (log', some e) => (setPart t (R idx ((bt.lookup t).getD [])) bt, log', idx + 1, some e)
    | (log', none) =>
      stepKeys R behL (idx + 1) ks (setPart t (R idx ((bt.lookup t).getD [])) bt) log'

/-- Modelled from the spec, corrected against the test suite: the
Randomized-by-Type policy `step()`.  The spec describes one shuffle per
type with types visited in first-seen insertion order, but the by-type
shuffle test (`TestRandomActivationByType.test_random_activation_step_shuffles`)
routes the model's random source and every per-type sub-registry's random
source into a single counting mock and observes two shuffle calls after one
`step()` of a single-type model — one more than one-per-type.  The extra
call is a per-tick shuffle of the type iteration order through the model's
random source.  So: shuffle the list of type tags once, then one
shuffle-and-activate round per type, in the shuffled visit order; the
stored partition order (and the counters' and partitions' semantics) is
untouched by the type-order shuffle, and the TickCounter increments once
after all types complete exception-free. -/
def byTypeStep (R : Nat → List Nat → List Nat) (behL : Nat → BehL) (s : SchedBT) :
    SchedBT × Option Nat :=
  match stepKeys R behL (s.rngIdx + 1) (R s.rngIdx (s.byType.map Prod.fst))
      s.byType s.log with
  | (bt', log', idx', some e) =>
    ({ s with byType := bt', log := log', rngIdx := idx' }, some e)
  | (bt', log', idx', none) =>
    ({ agents := s.agents, byType := bt', log := log', rngIdx := idx',
       steps := s.steps + 1, time := s.time + 1 }, none)

/-- The by-type tests' logging primary behavior: append the unique id. -/
def behLLog (a : Nat) : BehL := fun log => (log ++ [Entry.stepped a], none)

/-- An operation on a by-type scheduler, for stating invariants over
arbitrary operation sequences; a failing `add`/`remove` leaves the state
unchanged (the exception propagates to the caller). -/
inductive BTOp where
  | addOp (a : Nat)
  | removeOp (a : Nat)
  | stepOp
deriving DecidableEq, Repr

/-- Apply one operation to a by-type scheduler, keeping the prior state on
a raised DuplicateAgent / AgentNotFound error. -/
def applyBTOp (ty : Nat → Nat) (R : Nat → List Nat → List Nat) (behL : Nat → BehL) :
    BTOp → SchedBT → SchedBT
  | BTOp.addOp a, s =>
    match s.add ty a with
    | .ok s' => s'
    | .error _ => s
  | BTOp.removeOp a, s =>
    match s.remove ty a with
    | .ok s' => s'
    | .error _ => s
  | BTOp.stepOp, s => (byTypeStep R behL s).1

/-- Apply a sequence of operations, left to right. -/
def applyBTOps (ty : Nat → Nat) (R : Nat → List Nat → List Nat) (behL : Nat → BehL)
    (ops : List BTOp) (s : SchedBT) : SchedBT :=
  ops.foldl (fun s' op => applyBTOp ty R behL op s') s

/-- The number of agents of type `t` currently in the top-level registry. -/
def liveTypeCount (ty : Nat → Nat) (s : SchedBT) (t : Nat) : Nat :=
  (s.agents.filter (fun a => ty a = t)).length

/-- The type-partition consistency invariant: every type's sub-registry
holds exactly the agents of that type present in the top-level registry,
up to the ordering produced by per-type shuffles. -/
def BTConsistent (ty : Nat → Nat) (s : SchedBT) : Prop :=
  ∀ t, ((s.byType.lookup t).getD []).Perm (s.agents.filter (fun a => ty a = t))

/-- `B` is never (re-)added to the registry by the behavior `f`: once `B`
is absent it stays absent across an invocation of `f`. -/
def NoReadd (B : Nat) (f : Beh) : Prop :=
  ∀ w, B ∉ w.agents → B ∉ (f w).1.agents

/-- The behavior `f` only ever appends to the model log. -/
def AppendOnly (f : Beh) : Prop :=
  ∀ w, ∃ t, (f w).1.log = w.log ++ t

/-- The log segment one tick of the Staged policy with the logging mock
behaviors appends, when the agent order (identical in every stage) is
`o`: each agent-level stage contributes `o` tagged with its stage name and
each model-level stage contributes a single hook entry. -/
def tickLog (o : List Nat) : List Stage → List Entry
  | [] => []
  | Stage.agentStage n :: rest => o.map (fun a => Entry.stageEntry a n) ++ tickLog o rest
  | Stage.modelStage n :: rest => Entry.hookEntry n :: tickLog o rest

/-- The agent identifiers logged under stage tag `n`, in log order. -/
def loggedIn (n : Nat) (log : List Entry) : List Nat :=
  log.filterMap fun e =>
    match e with
    | Entry.stageEntry a m => if m = n then some a else none
    | _ => none

/-- The partition produced by one by-type tick when the (shuffled) type
visit list is `ks`: each visited type's sub-registry replaced by the output
of its own single shuffle call, storage order untouched. -/
def visitParts (R : Nat → List Nat → List Nat) :
    Nat → List Nat → List (Nat × List Nat) → List (Nat × List Nat)
  | _, [], bt => bt
  | idx, t :: ks, bt =>
    visitParts R (idx + 1) ks (setPart t (R idx ((bt.lookup t).getD [])) bt)

/-- The log segment one by-type tick with the logging mock behavior
appends when the (shuffled) type visit list is `ks`: one contiguous block
per visited type, in visit order, each block that type's shuffled
sub-registry. -/
def visitLog (R : Nat → List Nat → List Nat) :
    Nat → List Nat → List (Nat × List Nat) → List Entry
  | _, [], _ => []
  | idx, t :: ks, bt =>
    (R idx ((bt.lookup t).getD [])).map Entry.stepped ++
      visitLog R (idx + 1) ks (setPart t (R idx ((bt.lookup t).getD [])) bt)

/-- The stage list of the staged-activation tests:
`["stage_one", "model.model_stage", "stage_two"]`, with `stage_one`
rendered as agent stage 1, the hook as model stage 0, `stage_two` as agent
stage 2. -/
def stagesC6 : List Stage := [Stage.agentStage 1, Stage.modelStage 0, Stage.agentStage 2]

/-- The mock model of the tests right after construction: two agents with
identifiers 1 and 2, empty log, zeroed counters. -/
def sched12 : Sched := ⟨⟨[1, 2], []⟩, 0, 0, 0⟩

/-- The log segment one unshuffled staged tick over agents `[1, 2]` is
expected to produce: `[a1_stage1, a2_stage1, hook, a1_stage2, a2_stage2]`. -/
def logSegC6 : List Entry :=
  [Entry.stageEntry 1 1, Entry.stageEntry 2 1, Entry.hookEntry 0,
   Entry.stageEntry 1 2, Entry.stageEntry 2 2]

/-! ## Helper lemmas -/

theorem runAgents_append (beh : Nat → Beh) (l₁ l₂ : List Nat) (w : World) :
    runAgents beh (l₁ ++ l₂) w =
      match runAgents beh l₁ w with
      | (w₁, none) => runAgents beh l₂ w₁
      | (w₁, some e) => (w₁, some e) := by
  induction l₁ generalizing w with
  | nil => simp [runAgents]
  | cons a rest ih =>
    simp only [List.cons_append, runAgents]
    by_cases h : a ∈ w.agents
    · simp only [if_pos h]
      rcases hb : beh a w with ⟨w', err⟩
      cases err <;> simp [ih]
    · simp [if_neg h, ih]

/-! ## C2: duplicate registration -/

/-- C2: for every registry state (plain and by-type) and every agent `a`
already registered, `add a` raises DuplicateAgent — the duplicate is never
silently accepted; and after a successful `add a`, a second `add a` raises
DuplicateAgent.  Because a failing `add` returns only the error and no new
state, the caller's registry (its size and membership) is unchanged by the
failed call. -/
theorem claim_C2 :
    (∀ (s : Sched) (a : Nat), a ∈ s.world.agents →
      s.add a = Except.error SchedError.duplicateAgent) ∧
    (∀ (s s' : Sched) (a : Nat), s.add a = Except.ok s' →
      s'.add a = Except.error SchedError.duplicateAgent ∧
      s'.world.agents.length = s.world.agents.length + 1) ∧
    (∀ (ty : Nat → Nat) (s : SchedBT) (a : Nat), a ∈ s.agents →
      s.add ty a = Except.error SchedError.duplicateAgent) ∧
    (∀ (ty : Nat → Nat) (s s' : SchedBT) (a : Nat), s.add ty a = Except.ok s' →
      s'.add ty a = Except.error SchedError.duplicateAgent ∧
      s'.agents.length = s.agents.length + 1) := by
  refine ⟨fun s a h => by simp [Sched.add, h], fun s s' a h => ?_,
    fun ty s a h => by simp [SchedBT.add, h], fun ty s s' a h => ?_⟩
  · simp only [Sched.add] at h
    split at h
    · exact absurd h (by simp)
    · rename_i hmem
      rw [Except.ok.injEq] at h
      subst h
      constructor
      · simp [Sched.add]
      · simp
  · simp only [SchedBT.add] at h
    split at h
    · exact absurd h (by simp)
    · rename_i hmem
      rw [Except.ok.injEq] at h
      subst h
      constructor
      · simp [SchedBT.add]
      · simp

/-- C2 witness: concrete instantiation — adding agent 1 to a registry that
already holds it fails with DuplicateAgent, and a fresh add followed by a
re-add fails the second time. -/
theorem claim_C2_witness :
    sched12.add 1 = Except.error SchedError.duplicateAgent ∧
    ((initSchedBT.add (fun a => a % 2) 3 = Except.ok
        { initSchedBT with agents := [3], byType := [(1, [3])] }) ∧
      ({ initSchedBT with agents := [3], byType := [(1, [3])] } : SchedBT).add
          (fun a => a % 2) 3 = Except.error SchedError.duplicateAgent) :=
  ⟨claim_C2.1 sched12 1 (by decide),
    by
      have h : initSchedBT.add (fun a => a % 2) 3 = Except.ok
          { initSchedBT with agents := [3], byType := [(1, [3])] } := rfl
      exact ⟨h, (claim_C2.2.2.2 (fun a => a % 2) initSchedBT _ 3 h).1⟩⟩

/-! ## C3: the TickCounter -/

/-- C3: `steps` and `time` are both 0 at construction; every
exception-free `step()` of every policy (Sequential, Randomized, Staged,
Simultaneous, Randomized-by-Type) increments each by exactly 1, for any
behaviors, any number of agents and any stage list; and consequently any
step function with that property reaches `steps = time = n` after `n`
exception-free ticks. -/
theorem claim_C3 :
    (initSched.steps = 0 ∧ initSched.time = 0 ∧
      initSchedBT.steps = 0 ∧ initSchedBT.time = 0) ∧
    (∀ (beh : Nat → Beh) (s : Sched), (baseStep beh s).2 = none →
      (baseStep beh s).1.steps = s.steps + 1 ∧ (baseStep beh s).1.time = s.time + 1) ∧
    (∀ (R : Nat → List Nat → List Nat) (beh : Nat → Beh) (s : Sched),
      (randomStep R beh s).2 = none →
      (randomStep R beh s).1.steps = s.steps + 1 ∧
      (randomStep R beh s).1.time = s.time + 1) ∧
    (∀ (R : Nat → List Nat → List Nat) (b : Bool) (stages : List Stage)
      (beh : Nat → Nat → Beh) (hook : Nat → Beh) (s : Sched),
      (stagedStep R b stages beh hook s).2 = none →
      (stagedStep R b stages beh hook s).1.steps = s.steps + 1 ∧
      (stagedStep R b stages beh hook s).1.time = s.time + 1) ∧
    (∀ (stepBeh advBeh : Nat → Beh) (s : Sched),
      (simultaneousStep stepBeh advBeh s).2 = none →
      (simultaneousStep stepBeh advBeh s).1.steps = s.steps + 1 ∧
      (simultaneousStep stepBeh advBeh s).1.time = s.time + 1) ∧
    (∀ (R : Nat → List Nat → List Nat) (behL : Nat → BehL) (s : SchedBT),
      (byTypeStep R behL s).2 = none →
      (byTypeStep R behL s).1.steps = s.steps + 1 ∧
      (byTypeStep R behL s).1.time = s.time + 1) ∧
    (∀ (α : Type) (f : α → α × Option Nat) (stepsOf timeOf : α → Nat),
      (∀ x, (f x).2 = none →
        stepsOf (f x).1 = stepsOf x + 1 ∧ timeOf (f x).1 = timeOf x + 1) →
      ∀ (n : Nat) (x : α), (iterateTicks f n x).2 = none →
        stepsOf (iterateTicks f n x).1 = stepsOf x + n ∧
        timeOf (iterateTicks f n x).1 = timeOf x + n) := by
  refine ⟨⟨rfl, rfl, rfl, rfl⟩, ?_, ?_, ?_, ?_, ?_, ?_⟩
  · intro beh s h
    simp only [baseStep] at h ⊢
    rcases hr : runAgents beh s.world.agents s.world with ⟨w, err⟩
    rw [hr] at h
    cases err
    · exact ⟨rfl, rfl⟩
    · simp at h
  · intro R beh s h
    simp only [randomStep, baseStep] at h ⊢
    rcases hr : runAgents beh _ _ with ⟨w, err⟩
    rw [hr] at h
    cases err
    · exact ⟨rfl, rfl⟩
    · simp at h
  · intro R b stages beh hook s h
    simp only [stagedStep] at h ⊢
    rcases hr : runStages beh hook stages _ with ⟨w, err⟩
    rw [hr] at h
    cases err
    · exact ⟨rfl, rfl⟩
    · simp at h
  · intro stepBeh advBeh s h
    simp only [simultaneousStep] at h ⊢
    rcases hr : runAgents stepBeh s.world.agents s.world with ⟨w, err⟩
    rw [hr] at h
    cases err
    · dsimp only at h ⊢
      rcases hr2 : runAgents advBeh s.world.agents w with ⟨w', err'⟩
      rw [hr2] at h
      cases err'
      · exact ⟨rfl, rfl⟩
      · simp at h
    · simp at h
  · intro R behL s h
    simp only [byTypeStep] at h ⊢
    rcases hr : stepKeys R behL (s.rngIdx + 1) (R s.rngIdx (s.byType.map Prod.fst))
        s.byType s.log with ⟨bt, lg, idx, err⟩
    rw [hr] at h
    cases err
    · exact ⟨rfl, rfl⟩
    · simp at h
  · intro α f stepsOf timeOf hstep n
    induction n with
    | zero => intro x _; exact ⟨rfl, rfl⟩
    | succ n ih =>
      intro x h
      simp only [iterateTicks] at h ⊢
      rcases hf : f x with ⟨x', err⟩
      rw [hf] at h
      cases err with
      | some e => simp at h
      | none =>
        have h1 := hstep x (by rw [hf])
        rw [hf] at h1
        simp at h1
        obtain ⟨h1a, h1b⟩ := h1
        obtain ⟨h2a, h2b⟩ := ih x' h
        constructor
        · show stepsOf (iterateTicks f n x').1 = stepsOf x + (n + 1)
          omega
        · show timeOf (iterateTicks f n x').1 = timeOf x + (n + 1)
          omega

/-- C3 witness: one tick of the Randomized policy on the two-agent mock
model takes `steps` and `time` from 0 to 1, and three exception-free ticks
of the Sequential policy from a fresh scheduler reach `steps = time = 3`. -/
theorem claim_C3_witness :
    ((randomStep (fun _ l => l.reverse) behLogStep sched12).1.steps = sched12.steps + 1 ∧
      (randomStep (fun _ l => l.reverse) behLogStep sched12).1.time = sched12.time + 1) ∧
    ((iterateTicks (baseStep behLogStep) 3 sched12).1.steps = sched12.steps + 3 ∧
      (iterateTicks (baseStep behLogStep) 3 sched12).1.time = sched12.time + 3) :=
  ⟨claim_C3.2.2.1 (fun _ l => l.reverse) behLogStep sched12 rfl,
    claim_C3.2.2.2.2.2.2 Sched (baseStep behLogStep) Sched.steps Sched.time
      (fun x => claim_C3.2.1 behLogStep x) 3 sched12 rfl⟩

/-! ## C6: staged activation without shuffle -/

/-- C6: for the Staged policy with the two mock agents 1 and 2, stage list
`[stage_one, model.model_stage, stage_two]` and shuffle disabled, one
`step()` (for any random source, which is never consulted) produces exactly
the log `[a1_stage1, a2_stage1, hook, a1_stage2, a2_stage2]` — the model
hook runs once per tick at its position, not once per agent — and two
consecutive `step()` calls complete without error and produce two
elementwise-identical log segments. -/
theorem claim_C6 (R : Nat → List Nat → List Nat) :
    stagedStep R false stagesC6 behLogStage hookLog sched12 =
      ({ world := ⟨[1, 2], logSegC6⟩, steps := 1, time := 1, rngIdx := 0 }, none) ∧
    (iterateTicks (stagedStep R false stagesC6 behLogStage hookLog) 2 sched12).1.world.log =
      logSegC6 ++ logSegC6 ∧
    (iterateTicks (stagedStep R false stagesC6 behLogStage hookLog) 2 sched12).2 = none :=
  ⟨rfl, rfl, rfl⟩

/-! ## C4: behavior exceptions propagate and abort the tick -/

/-- C4: for every policy, an exception raised by an agent behavior during
`step()` is not caught: `step()` returns that error to its caller with
`steps` and `time` still at their pre-tick values (all five policies), the
remaining agents of the erroring traversal are not run (the result is
independent of the part of the snapshot after the raising agent), and the
remaining stages of a staged tick are not run (the result is independent of
the stages after the erroring one). -/
theorem claim_C4 :
    (∀ (beh : Nat → Beh) (s : Sched) (e : Nat), (baseStep beh s).2 = some e →
      (baseStep beh s).1.steps = s.steps ∧ (baseStep beh s).1.time = s.time) ∧
    (∀ (R : Nat → List Nat → List Nat) (beh : Nat → Beh) (s : Sched) (e : Nat),
      (randomStep R beh s).2 = some e →
      (randomStep R beh s).1.steps = s.steps ∧ (randomStep R beh s).1.time = s.time) ∧
    (∀ (R : Nat → List Nat → List Nat) (b : Bool) (stages : List Stage)
      (beh : Nat → Nat → Beh) (hook : Nat → Beh) (s : Sched) (e : Nat),
      (stagedStep R b stages beh hook s).2 = some e →
      (stagedStep R b stages beh hook s).1.steps = s.steps ∧
      (stagedStep R b stages beh hook s).1.time = s.time) ∧
    (∀ (stepBeh advBeh : Nat → Beh) (s : Sched) (e : Nat),
      (simultaneousStep stepBeh advBeh s).2 = some e →
      (simultaneousStep stepBeh advBeh s).1.steps = s.steps ∧
      (simultaneousStep stepBeh advBeh s).1.time = s.time) ∧
    (∀ (R : Nat → List Nat → List Nat) (behL : Nat → BehL) (s : SchedBT) (e : Nat),
      (byTypeStep R behL s).2 = some e →
      (byTypeStep R behL s).1.steps = s.steps ∧ (byTypeStep R behL s).1.time = s.time) ∧
    (∀ (beh : Nat → Beh) (a : Nat) (l₁ l₂ : List Nat) (w w₁ w₂ : World) (e : Nat),
      runAgents beh l₁ w = (w₁, none) → a ∈ w₁.agents → beh a w₁ = (w₂, some e) →
      runAgents beh (l₁ ++ a :: l₂) w = (w₂, some e)) ∧
    (∀ (beh : Nat → Nat → Beh) (hook : Nat → Beh) (n : Nat) (rest : List Stage)
      (w w' : World) (e : Nat),
      (runAgents (beh n) w.agents w = (w', some e) →
        runStages beh hook (Stage.agentStage n :: rest) w = (w', some e)) ∧
      (hook n w = (w', some e) →
        runStages beh hook (Stage.modelStage n :: rest) w = (w', some e))) := by
  refine ⟨?_, ?_, ?_, ?_, ?_, ?_, ?_⟩
  · intro beh s e h
    simp only [baseStep] at h ⊢
    rcases hr : runAgents beh s.world.agents s.world with ⟨w, err⟩
    rw [hr] at h
    cases err
    · simp at h
    · exact ⟨rfl, rfl⟩
  · intro R beh s e h
    simp only [randomStep, baseStep] at h ⊢
    rcases hr : runAgents beh _ _ with ⟨w, err⟩
    rw [hr] at h
    cases err
    · simp at h
    · exact ⟨rfl, rfl⟩
  · intro R b stages beh hook s e h
    simp only [stagedStep] at h ⊢
    rcases hr : runStages beh hook stages _ with ⟨w, err⟩
    rw [hr] at h
    cases err
    · simp at h
    · exact ⟨rfl, rfl⟩
  · intro stepBeh advBeh s e h
    simp only [simultaneousStep] at h ⊢
    rcases hr : runAgents stepBeh s.world.agents s.world with ⟨w, err⟩
    rw [hr] at h
    cases err
    · dsimp only at h ⊢
      rcases hr2 : runAgents advBeh s.world.agents w with ⟨w', err'⟩
      rw [hr2] at h
      cases err'
      · simp at h
      · exact ⟨rfl, rfl⟩
    · exact ⟨rfl, rfl⟩
  · intro R behL s e h
    simp only [byTypeStep] at h ⊢
    rcases hr : stepKeys R behL (s.rngIdx + 1) (R s.rngIdx (s.byType.map Prod.fst))
        s.byType s.log with ⟨bt, lg, idx, err⟩
    rw [hr] at h
    cases err
    · simp at h
    · exact ⟨rfl, rfl⟩
  · intro beh a l₁ l₂ w w₁ w₂ e h1 hmem hbeh
    rw [runAgents_append, h1]
    simp [runAgents, hmem, hbeh]
  · intro beh hook n rest w w' e
    constructor
    · intro h
      simp [runStages, h]
    · intro h
      simp [runStages, h]

/-- C4 witness: a behavior raising error 7 at agent 1's turn aborts the
Sequential traversal regardless of the rest of the snapshot, and leaves the
counters of the two-agent mock scheduler at 0. -/
theorem claim_C4_witness :
    ((baseStep (behFail 7) sched12).1.steps = sched12.steps ∧
      (baseStep (behFail 7) sched12).1.time = sched12.time) ∧
    runAgents (behFail 7) ([] ++ 1 :: [2]) ⟨[1, 2], []⟩ = (⟨[1, 2], []⟩, some 7) :=
  ⟨claim_C4.1 (behFail 7) sched12 7 rfl,
    claim_C4.2.2.2.2.2.1 (behFail 7) 1 [] [2] ⟨[1, 2], []⟩ ⟨[1, 2], []⟩ ⟨[1, 2], []⟩ 7
      rfl (by decide) rfl⟩

/-! ## C7: the Randomized policy -/

theorem runAgents_logBeh (f : Nat → Entry) (l : List Nat) (w : World)
    (h : ∀ a ∈ l, a ∈ w.agents) :
    runAgents (logBeh f) l w = ({ w with log := w.log ++ l.map f }, none) := by
  induction l generalizing w with
  | nil => simp [runAgents]
  | cons a rest ih =>
    have hmem : a ∈ w.agents := h a (List.mem_cons_self a rest)
    simp only [runAgents, if_pos hmem, logBeh]
    rw [ih { w with log := w.log ++ [f a] } (fun b hb => h b (List.mem_cons_of_mem a hb))]
    simp

/-- C7: every Randomized `step()` consumes exactly one call of the model's
random source, reorders the registry in place to the shuffled order `o` (the
reorder persists in the resulting state), and invokes each currently
registered agent's primary behavior exactly once in the order `o` (the tick's
appended log is exactly `o`); when the random source is a true shuffle (a
permutation) and the registry has no duplicates, every registered agent is
stepped exactly once. -/
theorem claim_C7 (R : Nat → List Nat → List Nat) (s : Sched) :
    randomStep R behLogStep s =
      ({ world := ⟨R s.rngIdx s.world.agents,
           s.world.log ++ (R s.rngIdx s.world.agents).map Entry.stepped⟩,
         steps := s.steps + 1, time := s.time + 1, rngIdx := s.rngIdx + 1 }, none) ∧
    (∀ a : Nat, (∀ (i : Nat) (l : List Nat), (R i l).Perm l) → s.world.agents.Nodup →
      a ∈ s.world.agents →
      ((R s.rngIdx s.world.agents).map Entry.stepped).count (Entry.stepped a) = 1) := by
  constructor
  · simp only [randomStep, baseStep, behLogStep]
    rw [runAgents_logBeh Entry.stepped (R s.rngIdx s.world.agents)
      ⟨R s.rngIdx s.world.agents, s.world.log⟩ (fun b hb => hb)]
  · intro a hperm hnd hmem
    have hinj : Function.Injective Entry.stepped := fun x y hxy => by
      cases hxy; rfl
    rw [List.count_map_of_injective _ Entry.stepped hinj a]
    rw [(hperm s.rngIdx s.world.agents).count_eq a]
    exact List.count_eq_one_of_mem hnd hmem

/-- C7 witness: one Randomized tick over the two-agent mock scheduler with
a reversing shuffle steps agents in the order `[2, 1]`, and agent 2 is
stepped exactly once. -/
theorem claim_C7_witness :
    randomStep (fun _ l => l.reverse) behLogStep sched12 =
      ({ world := ⟨[2, 1], [Entry.stepped 2, Entry.stepped 1]⟩,
         steps := 1, time := 1, rngIdx := 1 }, none) ∧
    (([2, 1].map Entry.stepped).count (Entry.stepped 2) = 1) :=
  ⟨(claim_C7 (fun _ l => l.reverse) sched12).1,
    (claim_C7 (fun _ l => l.reverse) sched12).2 2
      (fun _ l => List.reverse_perm l) (by decide) (by decide)⟩

/-! ## C5: staged activation with shuffle -/

theorem runStages_log (stages : List Stage) (w : World) :
    runStages behLogStage hookLog stages w =
      (⟨w.agents, w.log ++ tickLog w.agents stages⟩, none) := by
  induction stages generalizing w with
  | nil => simp [runStages, tickLog]
  | cons st rest ih =>
    cases st with
    | agentStage n =>
      simp only [runStages, behLogStage]
      rw [runAgents_logBeh (fun a => Entry.stageEntry a n) w.agents w (fun b hb => hb)]
      dsimp only
      rw [ih { w with log := w.log ++ w.agents.map fun a => Entry.stageEntry a n }]
      simp [tickLog]
    | modelStage n =>
      simp only [runStages, hookLog]
      rw [ih { w with log := w.log ++ [Entry.hookEntry n] }]
      simp [tickLog]

theorem loggedIn_append (n : Nat) (xs ys : List Entry) :
    loggedIn n (xs ++ ys) = loggedIn n xs ++ loggedIn n ys := by
  simp [loggedIn, List.filterMap_append]

theorem loggedIn_stageBlock (n m : Nat) (o : List Nat) :
    loggedIn n (o.map fun a => Entry.stageEntry a m) = if m = n then o else [] := by
  simp only [loggedIn, List.filterMap_map]
  by_cases h : m = n
  · subst h
    have hc : ((fun e =>
        match e with
        | Entry.stageEntry a m1 => if m1 = m then some a else none
        | _ => none) ∘ fun a => Entry.stageEntry a m) = some := by
      funext a
      simp
    rw [hc, if_pos rfl]
    exact List.filterMap_some o
  · have hc : ((fun e =>
        match e with
        | Entry.stageEntry a m1 => if m1 = n then some a else none
        | _ => none) ∘ fun a => Entry.stageEntry a m) = fun _ => none := by
      funext a
      simp [h]
    rw [hc, if_neg h]
    simp

theorem loggedIn_tickLog (n : Nat) (o : List Nat) (stages : List Stage) :
    loggedIn n (tickLog o stages) =
      (List.replicate (stages.count (Stage.agentStage n)) o).flatten := by
  induction stages with
  | nil => simp [tickLog, loggedIn]
  | cons st rest ih =>
    cases st with
    | agentStage m =>
      rw [tickLog, loggedIn_append, loggedIn_stageBlock, ih]
      by_cases h : m = n
      · subst h
        simp [List.count_cons, List.replicate_succ]
      · have hne : (Stage.agentStage m == Stage.agentStage n) = false := by
          simp [h]
        simp [List.count_cons, hne, h]
    | modelStage m =>
      rw [tickLog]
      have : loggedIn n (Entry.hookEntry m :: tickLog o rest) = loggedIn n (tickLog o rest) := by
        simp [loggedIn, List.filterMap_cons]
      rw [this, ih]
      simp [List.count_cons]

/-- C5: for the Staged policy with shuffle enabled and the logging mock
behaviors, every `step()` consumes exactly one call of the model's random
source, before the first stage (the resulting `rngIdx` is `+1` and every
stage traverses the same order `o`, the single shuffle's output on the
pre-tick registry); the tick's appended log is `tickLog o stages`, in which
the agents logged under any stage tag `n` are exactly one copy of `o` per
occurrence of that agent-level stage — the same agents, in the same relative
order, in every agent-level stage of the tick. -/
theorem claim_C5 (R : Nat → List Nat → List Nat) (stages : List Stage) (s : Sched) :
    stagedStep R true stages behLogStage hookLog s =
      ({ world := ⟨R s.rngIdx s.world.agents,
           s.world.log ++ tickLog (R s.rngIdx s.world.agents) stages⟩,
         steps := s.steps + 1, time := s.time + 1, rngIdx := s.rngIdx + 1 }, none) ∧
    (∀ n : Nat, loggedIn n (tickLog (R s.rngIdx s.world.agents) stages) =
      (List.replicate (stages.count (Stage.agentStage n)) (R s.rngIdx s.world.agents)).flatten) := by
  constructor
  · simp [stagedStep, runStages_log]
  · intro n
    exact loggedIn_tickLog n (R s.rngIdx s.world.agents) stages

/-! ## C8: randomized-by-type activation -/

theorem runType_log (l : List Nat) (log : List Entry) :
    runType behLLog l log = (log ++ l.map Entry.stepped, none) := by
  induction l generalizing log with
  | nil => simp [runType]
  | cons a rest ih =>
    simp [runType, behLLog, ih]

theorem lookup_cons (k t : Nat) (v : List Nat) (rest : List (Nat × List Nat)) :
    List.lookup t ((k, v) :: rest) = if t = k then some v else List.lookup t rest := by
  by_cases h : t = k
  · have hb : (t == k) = true := by simp [h]
    simp [List.lookup, hb, h]
  · have hb : (t == k) = false := by simp [h]
    simp [List.lookup, hb, h]

theorem lookup_setPart (t : Nat) (sub : List Nat) (t' : Nat)
    (bt : List (Nat × List Nat)) :
    (setPart t sub bt).lookup t' =
      if t' = t then (bt.lookup t).map (fun _ => sub) else bt.lookup t' := by
  induction bt with
  | nil => by_cases h : t' = t <;> simp [setPart, List.lookup, h]
  | cons p rest ih =>
    rcases p with ⟨k, l⟩
    by_cases hk : k = t <;> by_cases h : t' = k <;> by_cases h2 : t' = t <;>
      simp_all [setPart, lookup_cons]

theorem setPart_fst (t : Nat) (sub : List Nat) (bt : List (Nat × List Nat)) :
    (setPart t sub bt).map Prod.fst = bt.map Prod.fst := by
  induction bt with
  | nil => rfl
  | cons p rest ih =>
    rcases p with ⟨k, l⟩
    by_cases h : k = t <;> simp [setPart, h, ih]

theorem stepKeys_log (R : Nat → List Nat → List Nat) (ks : List Nat) :
    ∀ (idx : Nat) (bt : List (Nat × List Nat)) (log : List Entry),
      stepKeys R behLLog idx ks bt log =
        (visitParts R idx ks bt, log ++ visitLog R idx ks bt, idx + ks.length, none) := by
  induction ks with
  | nil =>
    intro idx bt log
    simp [stepKeys, visitParts, visitLog]
  | cons t ks ih =>
    intro idx bt log
    simp only [stepKeys, runType_log]
    rw [ih]
    simp [visitParts, visitLog, List.append_assoc, Nat.add_assoc, Nat.add_comm,
      Nat.add_left_comm]

theorem visitParts_fst (R : Nat → List Nat → List Nat) (ks : List Nat) :
    ∀ (idx : Nat) (bt : List (Nat × List Nat)),
      (visitParts R idx ks bt).map Prod.fst = bt.map Prod.fst := by
  induction ks with
  | nil => intro idx bt; rfl
  | cons t ks ih =>
    intro idx bt
    simp only [visitParts]
    rw [ih]
    exact setPart_fst t _ bt

theorem visitLog_mem (R : Nat → List Nat → List Nat)
    (hperm : ∀ (i : Nat) (l : List Nat), (R i l).Perm l) (t a : Nat) (ks : List Nat) :
    ∀ (idx : Nat) (bt : List (Nat × List Nat)), t ∈ ks → a ∈ (bt.lookup t).getD [] →
      Entry.stepped a ∈ visitLog R idx ks bt := by
  induction ks with
  | nil => intro idx bt ht _; cases ht
  | cons k ks ih =>
    intro idx bt ht ha
    simp only [visitLog]
    by_cases hk : k = t
    · subst hk
      apply List.mem_append_left
      exact List.mem_map_of_mem Entry.stepped ((hperm idx _).mem_iff.mpr ha)
    · apply List.mem_append_right
      have ht' : t ∈ ks := by
        rcases List.mem_cons.mp ht with h | h
        · exact absurd h.symm hk
        · exact h
      apply ih (idx + 1) (setPart k (R idx ((bt.lookup k).getD [])) bt) ht'
      rw [lookup_setPart, if_neg (fun hc => hk hc.symm)]
      exact ha

/-- C8 counterexample: the by-type shuffle test's own scenario — one
`step()` of a scheduler holding two agents of a single type makes two
shuffle calls (the per-tick shuffle of the type iteration order through the
model's random source, plus the single type's sub-registry shuffle),
exactly as the test asserts (`shuffle.call_count == 2`), and not the one
call per registered type that "exactly one shuffle per type, type order not
randomized" predicts. -/
theorem claim_C8_counterexample :
    (byTypeStep (fun _ l => l.reverse) behLLog
        ⟨[1, 2], [(0, [1, 2])], [], 0, 0, 0⟩).1.rngIdx = 2 ∧
    (⟨[1, 2], [(0, [1, 2])], [], 0, 0, 0⟩ : SchedBT).byType.length = 1 ∧
    ¬ ((byTypeStep (fun _ l => l.reverse) behLLog
        ⟨[1, 2], [(0, [1, 2])], [], 0, 0, 0⟩).1.rngIdx =
      (⟨[1, 2], [(0, [1, 2])], [], 0, 0, 0⟩ : SchedBT).byType.length) := by
  decide

/-- C8 (amended): the Randomized-by-Type `step()` first shuffles the type
iteration order with one call of the model's random source, then visits the
types in that shuffled order, shuffling each visited type's sub-registry
with its own single call and activating all of that type's (shuffled)
members as a contiguous log block before moving to the next type — so a
tick makes `1 + number of types` shuffle calls and, under a permutation
random source, all types are activated every tick (every member of every
partition is activated); the stored partition order is untouched by
stepping, and `add` maintains it as insertion order of first-seen type (a
type already present keeps its position, a new type is appended). -/
theorem claim_C8 (R : Nat → List Nat → List Nat) (s : SchedBT) :
    (byTypeStep R behLLog s =
      ({ agents := s.agents,
         byType := visitParts R (s.rngIdx + 1)
           (R s.rngIdx (s.byType.map Prod.fst)) s.byType,
         log := s.log ++ visitLog R (s.rngIdx + 1)
           (R s.rngIdx (s.byType.map Prod.fst)) s.byType,
         steps := s.steps + 1, time := s.time + 1,
         rngIdx := s.rngIdx + 1 +
           (R s.rngIdx (s.byType.map Prod.fst)).length }, none)) ∧
    ((byTypeStep R behLLog s).1.byType.map Prod.fst = s.byType.map Prod.fst) ∧
    (∀ (t a : Nat) (bt : List (Nat × List Nat)),
      (insertByType t a bt).map Prod.fst =
        if t ∈ bt.map Prod.fst then bt.map Prod.fst else bt.map Prod.fst ++ [t]) ∧
    ((∀ (i : Nat) (l : List Nat), (R i l).Perm l) →
      (byTypeStep R behLLog s).1.rngIdx = s.rngIdx + 1 + s.byType.length) ∧
    ((∀ (i : Nat) (l : List Nat), (R i l).Perm l) →
      ∀ t ∈ s.byType.map Prod.fst, ∀ a ∈ (s.byType.lookup t).getD [],
        Entry.stepped a ∈ (byTypeStep R behLLog s).1.log) := by
  have heq : byTypeStep R behLLog s =
      ({ agents := s.agents,
         byType := visitParts R (s.rngIdx + 1)
           (R s.rngIdx (s.byType.map Prod.fst)) s.byType,
         log := s.log ++ visitLog R (s.rngIdx + 1)
           (R s.rngIdx (s.byType.map Prod.fst)) s.byType,
         steps := s.steps + 1, time := s.time + 1,
         rngIdx := s.rngIdx + 1 +
           (R s.rngIdx (s.byType.map Prod.fst)).length }, none) := by
    simp [byTypeStep, stepKeys_log]
  refine ⟨heq, ?_, ?_, ?_, ?_⟩
  · rw [heq]
    exact visitParts_fst R (R s.rngIdx (s.byType.map Prod.fst)) (s.rngIdx + 1) s.byType
  · intro t a bt
    induction bt with
    | nil => simp [insertByType]
    | cons p rest ih =>
      rcases p with ⟨t', l⟩
      by_cases h : t' = t
      · subst h
        simp [insertByType]
      · simp only [insertByType, if_neg h, List.map_cons, ih]
        have hne : t ≠ t' := fun hc => h hc.symm
        by_cases hmem : t ∈ rest.map Prod.fst
        · simp [hmem, hne]
        · simp [hmem, hne]
  · intro hperm
    rw [heq]
    show s.rngIdx + 1 + (R s.rngIdx (s.byType.map Prod.fst)).length =
      s.rngIdx + 1 + s.byType.length
    rw [(hperm s.rngIdx (s.byType.map Prod.fst)).length_eq, List.length_map]
  · intro hperm t ht a ha
    rw [heq]
    show Entry.stepped a ∈
      s.log ++ visitLog R (s.rngIdx + 1) (R s.rngIdx (s.byType.map Prod.fst)) s.byType
    apply List.mem_append_right
    exact visitLog_mem R hperm t a (R s.rngIdx (s.byType.map Prod.fst)) (s.rngIdx + 1)
      s.byType ((hperm s.rngIdx (s.byType.map Prod.fst)).mem_iff.mpr ht) ha

/-- C8 witness: the four-agent two-type scheduler; one by-type tick with a
reversing shuffle makes 1 + 2 = 3 shuffle calls (type order, type 0's
partition, type 1's partition) and activates agent 3, a member of type 1's
partition. -/
theorem claim_C8_witness :
    ((byTypeStep (fun _ l => l.reverse) behLLog
        ⟨[1, 2, 3, 4], [(1, [1, 3]), (0, [2, 4])], [], 0, 0, 0⟩).1.rngIdx = 3) ∧
    Entry.stepped 3 ∈ (byTypeStep (fun _ l => l.reverse) behLLog
        ⟨[1, 2, 3, 4], [(1, [1, 3]), (0, [2, 4])], [], 0, 0, 0⟩).1.log :=
  ⟨(claim_C8 (fun _ l => l.reverse)
      ⟨[1, 2, 3, 4], [(1, [1, 3]), (0, [2, 4])], [], 0, 0, 0⟩).2.2.2.1
      (fun _ l => List.reverse_perm l),
    (claim_C8 (fun _ l => l.reverse)
      ⟨[1, 2, 3, 4], [(1, [1, 3]), (0, [2, 4])], [], 0, 0, 0⟩).2.2.2.2
      (fun _ l => List.reverse_perm l) 1 (by decide) 3 (by decide)⟩

/-! ## C9: the type partition stays consistent with the registry -/

theorem lookup_insertByType (t a t' : Nat) (bt : List (Nat × List Nat)) :
    ((insertByType t a bt).lookup t').getD [] =
      if t' = t then ((bt.lookup t).getD []) ++ [a] else (bt.lookup t').getD [] := by
  induction bt with
  | nil =>
    by_cases h : t' = t
    · simp [insertByType, lookup_cons, List.lookup, h]
    · have hb : (t' == t) = false := by simp [h]
      simp [insertByType, lookup_cons, List.lookup, h, hb]
  | cons p rest ih =>
    rcases p with ⟨k, l⟩
    by_cases hk : k = t <;> by_cases h : t' = k <;> by_cases h2 : t' = t <;>
      simp_all [insertByType, lookup_cons]

theorem lookup_eraseByType (t a t' : Nat) (bt : List (Nat × List Nat)) :
    ((eraseByType t a bt).lookup t').getD [] =
      if t' = t then ((bt.lookup t).getD []).erase a else (bt.lookup t').getD [] := by
  induction bt with
  | nil => simp [eraseByType, List.lookup]
  | cons p rest ih =>
    rcases p with ⟨k, l⟩
    by_cases hk : k = t <;> by_cases h : t' = k <;> by_cases h2 : t' = t <;>
      simp_all [eraseByType, lookup_cons]

theorem filter_erase_pos (p : Nat → Bool) (a : Nat) (l : List Nat) (h : p a = true) :
    (l.erase a).filter p = (l.filter p).erase a := by
  induction l with
  | nil => rfl
  | cons b rest ih =>
    rw [List.erase_cons, List.filter_cons]
    by_cases hb : b = a
    · subst hb
      simp [h]
    · have hb' : (b == a) = false := by simp [hb]
      rw [if_neg (by simp [hb']), List.filter_cons]
      by_cases hp : p b = true
      · rw [if_pos hp, if_pos hp, ih, List.erase_cons, if_neg (by simp [hb'])]
      · have hp' : p b = false := by
          cases hpb : p b
          · rfl
          · exact absurd hpb hp
        simp [hp', ih]

theorem filter_erase_neg (p : Nat → Bool) (a : Nat) (l : List Nat) (h : p a = false) :
    (l.erase a).filter p = l.filter p := by
  induction l with
  | nil => rfl
  | cons b rest ih =>
    rw [List.erase_cons]
    by_cases hb : b = a
    · subst hb
      rw [if_pos (by simp), List.filter_cons, h]
      simp
    · have hb' : (b == a) = false := by simp [hb]
      rw [if_neg (by simp [hb']), List.filter_cons, List.filter_cons]
      by_cases hp : p b = true
      · rw [if_pos hp, if_pos hp, ih]
      · have hp' : p b = false := by
          cases hpb : p b
          · rfl
          · exact absurd hpb hp
        simp [hp', ih]

theorem stepKeys_lookup_perm (R : Nat → List Nat → List Nat)
    (hperm : ∀ (i : Nat) (l : List Nat), (R i l).Perm l) (behL : Nat → BehL)
    (ks : List Nat) :
    ∀ (idx : Nat) (bt : List (Nat × List Nat)) (log : List Entry) (t' : Nat),
      ((((stepKeys R behL idx ks bt log).1).lookup t').getD []).Perm
        ((bt.lookup t').getD []) := by
  induction ks with
  | nil =>
    intro idx bt log t'
    simp [stepKeys]
  | cons t ks ih =>
    intro idx bt log t'
    simp only [stepKeys]
    have hsp : ∀ u : Nat,
        (((setPart t (R idx ((bt.lookup t).getD [])) bt).lookup u).getD []).Perm
          ((bt.lookup u).getD []) := by
      intro u
      rw [lookup_setPart]
      by_cases h : u = t
      · rw [if_pos h, h]
        cases hl : bt.lookup t with
        | none => exact List.Perm.refl _
        | some l => exact hperm idx l
      · rw [if_neg h]
    rcases hr : runType behL (R idx ((bt.lookup t).getD [])) log with ⟨log', err⟩
    cases err with
    | some e => exact hsp t'
    | none =>
      exact (ih (idx + 1) (setPart t (R idx ((bt.lookup t).getD [])) bt) log' t').trans
        (hsp t')

theorem consistent_applyBTOp (ty : Nat → Nat) (R : Nat → List Nat → List Nat)
    (behL : Nat → BehL) (hperm : ∀ (i : Nat) (l : List Nat), (R i l).Perm l)
    (op : BTOp) (s : SchedBT) (h : BTConsistent ty s) :
    BTConsistent ty (applyBTOp ty R behL op s) := by
  cases op with
  | addOp a =>
    simp only [applyBTOp, SchedBT.add]
    by_cases hmem : a ∈ s.agents
    · simp only [if_pos hmem]
      exact h
    · simp only [if_neg hmem]
      intro t
      dsimp only
      rw [lookup_insertByType, List.filter_append]
      by_cases ht : t = ty a
      · subst ht
        rw [if_pos rfl]
        have hfa : List.filter (fun b => decide (ty b = ty a)) [a] = [a] := by simp
        rw [hfa]
        exact (h (ty a)).append_right [a]
      · rw [if_neg ht]
        have hta : ¬ ty a = t := fun hc => ht hc.symm
        have hfa : List.filter (fun b => decide (ty b = t)) [a] = [] := by simp [hta]
        rw [hfa, List.append_nil]
        exact h t
  | removeOp a =>
    simp only [applyBTOp, SchedBT.remove]
    by_cases hmem : a ∈ s.agents
    · simp only [if_pos hmem]
      intro t
      dsimp only
      rw [lookup_eraseByType]
      by_cases ht : t = ty a
      · subst ht
        rw [if_pos rfl, filter_erase_pos _ _ _ (by simp)]
        exact (h (ty a)).erase a
      · have hta : ¬ ty a = t := fun hc => ht hc.symm
        rw [if_neg ht, filter_erase_neg _ _ _ (by simp [hta])]
        exact h t
    · simp only [if_neg hmem]
      exact h
  | stepOp =>
    simp only [applyBTOp, byTypeStep]
    rcases hr : stepKeys R behL (s.rngIdx + 1) (R s.rngIdx (s.byType.map Prod.fst))
        s.byType s.log with ⟨bt', log', idx', err⟩
    have hp := stepKeys_lookup_perm R hperm behL (R s.rngIdx (s.byType.map Prod.fst))
      (s.rngIdx + 1) s.byType s.log
    rw [hr] at hp
    cases err with
    | some e =>
      intro t
      exact (hp t).trans (h t)
    | none =>
      intro t
      exact (hp t).trans (h t)

theorem consistent_applyBTOps (ty : Nat → Nat) (R : Nat → List Nat → List Nat)
    (behL : Nat → BehL) (hperm : ∀ (i : Nat) (l : List Nat), (R i l).Perm l)
    (ops : List BTOp) :
    ∀ s : SchedBT, BTConsistent ty s → BTConsistent ty (applyBTOps ty R behL ops s) := by
  induction ops with
  | nil => intro s h; exact h
  | cons op rest ih =>
    intro s h
    exact ih (applyBTOp ty R behL op s) (consistent_applyBTOp ty R behL hperm op s h)

/-- C9: for the Randomized-by-Type policy, after any sequence of `add`,
`remove` and `step` operations starting from a fresh scheduler (failed
adds/removes leaving the state unchanged as their exception propagates),
`get_type_count T` equals the number of type-`T` agents currently in the
top-level registry, for every type `T` — provided the random source is a
true shuffle (a permutation). -/
theorem claim_C9 (ty : Nat → Nat) (R : Nat → List Nat → List Nat) (behL : Nat → BehL)
    (ops : List BTOp) (hperm : ∀ (i : Nat) (l : List Nat), (R i l).Perm l) :
    ∀ t : Nat, (applyBTOps ty R behL ops initSchedBT).getTypeCount t =
      liveTypeCount ty (applyBTOps ty R behL ops initSchedBT) t := by
  intro t
  have hinit : BTConsistent ty initSchedBT := by
    intro t'
    simp [initSchedBT, List.lookup]
  have h := consistent_applyBTOps ty R behL hperm ops initSchedBT hinit
  exact (h t).length_eq

/-- C9 witness: a concrete mixed sequence of adds, removes and a by-type
tick under a reversing shuffle keeps `get_type_count` equal to the live
per-type registry count (checked at both types). -/
theorem claim_C9_witness :
    ((applyBTOps (fun a => a % 2) (fun _ l => l.reverse) behLLog
        [BTOp.addOp 1, BTOp.addOp 2, BTOp.addOp 3, BTOp.stepOp, BTOp.removeOp 2,
          BTOp.addOp 4, BTOp.removeOp 1, BTOp.addOp 1]
        initSchedBT).getTypeCount 0 =
      liveTypeCount (fun a => a % 2)
        (applyBTOps (fun a => a % 2) (fun _ l => l.reverse) behLLog
          [BTOp.addOp 1, BTOp.addOp 2, BTOp.addOp 3, BTOp.stepOp, BTOp.removeOp 2,
            BTOp.addOp 4, BTOp.removeOp 1, BTOp.addOp 1]
          initSchedBT) 0) ∧
    ((applyBTOps (fun a => a % 2) (fun _ l => l.reverse) behLLog
        [BTOp.addOp 1, BTOp.addOp 2, BTOp.addOp 3, BTOp.stepOp, BTOp.removeOp 2,
          BTOp.addOp 4, BTOp.removeOp 1, BTOp.addOp 1]
        initSchedBT).getTypeCount 1 =
      liveTypeCount (fun a => a % 2)
        (applyBTOps (fun a => a % 2) (fun _ l => l.reverse) behLLog
          [BTOp.addOp 1, BTOp.addOp 2, BTOp.addOp 3, BTOp.stepOp, BTOp.removeOp 2,
            BTOp.addOp 4, BTOp.removeOp 1, BTOp.addOp 1]
          initSchedBT) 1) :=
  ⟨claim_C9 (fun a => a % 2) (fun _ l => l.reverse) behLLog
      [BTOp.addOp 1, BTOp.addOp 2, BTOp.addOp 3, BTOp.stepOp, BTOp.removeOp 2,
        BTOp.addOp 4, BTOp.removeOp 1, BTOp.addOp 1]
      (fun _ l => List.reverse_perm l) 0,
    claim_C9 (fun a => a % 2) (fun _ l => l.reverse) behLLog
      [BTOp.addOp 1, BTOp.addOp 2, BTOp.addOp 3, BTOp.stepOp, BTOp.removeOp 2,
        BTOp.addOp 4, BTOp.removeOp 1, BTOp.addOp 1]
      (fun _ l => List.reverse_perm l) 1⟩

/-! ## C10: constructor-time registration of an agent iterable -/

theorem addAll_ok (l : List Nat) :
    ∀ s : Sched, (∀ a ∈ l, a ∉ s.world.agents) → l.Nodup →
      Sched.addAll s l =
        Except.ok { s with world := { s.world with agents := s.world.agents ++ l } } := by
  induction l with
  | nil =>
    intro s _ _
    simp [Sched.addAll]
  | cons a rest ih =>
    intro s hnotin hnd
    have hadd : s.add a =
        Except.ok { s with world := { s.world with agents := s.world.agents ++ [a] } } := by
      simp [Sched.add, hnotin a (List.mem_cons_self a rest)]
    simp only [Sched.addAll, hadd]
    have hnotin' : ∀ b ∈ rest,
        b ∉ s.world.agents ++ [a] := by
      intro b hb
      rw [List.mem_append]
      rintro (hc | hc)
      · exact hnotin b (List.mem_cons_of_mem a hb) hc
      · rw [List.mem_singleton] at hc
        subst hc
        exact (List.nodup_cons.mp hnd).1 hb
    rw [show (Except.ok { s with world := { s.world with agents := s.world.agents ++ [a] } } :
        Except SchedError Sched) >>= (fun x => Sched.addAll x rest) =
        Sched.addAll { s with world := { s.world with agents := s.world.agents ++ [a] } } rest
      from rfl]
    rw [ih _ hnotin' (List.nodup_cons.mp hnd).2]
    simp

theorem addAllBT_props (ty : Nat → Nat) (l : List Nat) :
    ∀ s : SchedBT, (∀ a ∈ l, a ∉ s.agents) → l.Nodup →
      ∃ s', SchedBT.addAll ty s l = Except.ok s' ∧ s'.agents = s.agents ++ l ∧
        (BTConsistent ty s → BTConsistent ty s') := by
  induction l with
  | nil =>
    intro s _ _
    exact ⟨s, rfl, by simp, fun h => h⟩
  | cons a rest ih =>
    intro s hnotin hnd
    have hmem : a ∉ s.agents := hnotin a (List.mem_cons_self a rest)
    have hadd : s.add ty a = Except.ok
        { s with agents := s.agents ++ [a], byType := insertByType (ty a) a s.byType } := by
      simp [SchedBT.add, hmem]
    have hnotin' : ∀ b ∈ rest, b ∉ s.agents ++ [a] := by
      intro b hb
      rw [List.mem_append]
      rintro (hc | hc)
      · exact hnotin b (List.mem_cons_of_mem a hb) hc
      · rw [List.mem_singleton] at hc
        subst hc
        exact (List.nodup_cons.mp hnd).1 hb
    obtain ⟨s', hok, hagents, hcons⟩ :=
      ih { s with agents := s.agents ++ [a], byType := insertByType (ty a) a s.byType }
        hnotin' (List.nodup_cons.mp hnd).2
    refine ⟨s', ?_, ?_, ?_⟩
    · simp only [SchedBT.addAll, hadd]
      exact hok
    · rw [hagents]
      simp
    · intro hc
      apply hcons
      have heq : applyBTOp ty (fun _ l2 => l2) (fun _ log => (log, none)) (BTOp.addOp a) s =
          { s with agents := s.agents ++ [a], byType := insertByType (ty a) a s.byType } := by
        simp only [applyBTOp, hadd]
      have hstep := consistent_applyBTOp ty (fun _ l2 => l2) (fun _ log => (log, none))
        (fun _ l2 => List.Perm.refl l2) (BTOp.addOp a) s hc
      rw [heq] at hstep
      exact hstep

/-- C10: the Randomized and Randomized-by-Type schedulers accept an
iterable of agents at construction, registered exactly as one `add` per
agent: for any duplicate-free iterable, construction from a fresh scheduler
succeeds, the registry holds exactly the iterable (so every agent of the
iterable is a member of the scheduler's agents view immediately after
construction), and in the by-type variant each agent additionally sits in
its own type's partition. -/
theorem claim_C10 :
    (∀ l : List Nat, l.Nodup →
      ∃ s', Sched.addAll initSched l = Except.ok s' ∧ s'.world.agents = l ∧
        ∀ a ∈ l, a ∈ s'.world.agents) ∧
    (∀ (ty : Nat → Nat) (l : List Nat), l.Nodup →
      ∃ s', SchedBT.addAll ty initSchedBT l = Except.ok s' ∧ s'.agents = l ∧
        (∀ a ∈ l, a ∈ s'.agents) ∧
        (∀ a ∈ l, a ∈ ((s'.byType.lookup (ty a)).getD []))) := by
  constructor
  · intro l hnd
    have h := addAll_ok l initSched (by intro a _ hc; cases hc) hnd
    refine ⟨_, h, ?_, ?_⟩
    · simp [initSched]
    · intro a ha
      simpa [initSched] using ha
  · intro ty l hnd
    obtain ⟨s', hok, hagents, hcons⟩ :=
      addAllBT_props ty l initSchedBT (by intro a _ hc; cases hc) hnd
    have hinit : BTConsistent ty initSchedBT := by
      intro t'
      simp [initSchedBT, List.lookup]
    have hc := hcons hinit
    have hagents' : s'.agents = l := by
      rw [hagents]
      simp [initSchedBT]
    refine ⟨s', hok, hagents', ?_, ?_⟩
    · intro a ha
      rw [hagents']
      exact ha
    · intro a ha
      have hfil : a ∈ s'.agents.filter (fun b => decide (ty b = ty a)) := by
        rw [List.mem_filter]
        exact ⟨by rw [hagents']; exact ha, by simp⟩
      exact ((hc (ty a)).mem_iff).mpr hfil

/-- C10 witness: constructing schedulers from the iterable `[3, 1, 2]`
registers all three agents, and in the by-type variant with parity types
each agent lands in its parity partition. -/
theorem claim_C10_witness :
    (∃ s', Sched.addAll initSched [3, 1, 2] = Except.ok s' ∧ s'.world.agents = [3, 1, 2] ∧
      ∀ a ∈ [3, 1, 2], a ∈ s'.world.agents) ∧
    (∃ s', SchedBT.addAll (fun a => a % 2) initSchedBT [3, 1, 2] = Except.ok s' ∧
      s'.agents = [3, 1, 2] ∧ (∀ a ∈ [3, 1, 2], a ∈ s'.agents) ∧
      (∀ a ∈ [3, 1, 2], a ∈ ((s'.byType.lookup (a % 2)).getD []))) :=
  ⟨claim_C10.1 [3, 1, 2] (by decide), claim_C10.2 (fun a => a % 2) [3, 1, 2] (by decide)⟩

/-! ## C1: intra-tick removal -/

theorem runAgents_noReadd (beh : Nat → Beh) (B : Nat)
    (hnr : ∀ a, NoReadd B (beh a)) (l : List Nat) :
    ∀ w : World, B ∉ w.agents → B ∉ (runAgents beh l w).1.agents := by
  induction l with
  | nil => intro w hB; exact hB
  | cons a rest ih =>
    intro w hB
    simp only [runAgents]
    by_cases ha : a ∈ w.agents
    · rw [if_pos ha]
      rcases hb : beh a w with ⟨w', err⟩
      have hB' : B ∉ w'.agents := by
        have := hnr a w hB
        rw [hb] at this
        exact this
      cases err
      · exact ih w' hB'
      · exact hB'
    · rw [if_neg ha]
      exact ih w hB

theorem runAgents_congrB (beh beh' : Nat → Beh) (B : Nat)
    (hcong : ∀ a, a ≠ B → beh a = beh' a) (hnr : ∀ a, NoReadd B (beh a)) (l : List Nat) :
    ∀ w : World, B ∉ w.agents → runAgents beh l w = runAgents beh' l w := by
  induction l with
  | nil => intro w _; rfl
  | cons a rest ih =>
    intro w hB
    simp only [runAgents]
    by_cases ha : a ∈ w.agents
    · rw [if_pos ha, if_pos ha]
      have hne : a ≠ B := fun hc => hB (hc ▸ ha)
      rw [← hcong a hne]
      rcases hb : beh a w with ⟨w', err⟩
      have hB' : B ∉ w'.agents := by
        have := hnr a w hB
        rw [hb] at this
        exact this
      cases err
      · exact ih w' hB'
      · rfl
    · rw [if_neg ha, if_neg ha]
      exact ih w hB

theorem runStages_congrB (beh beh' : Nat → Nat → Beh) (hook : Nat → Beh) (B : Nat)
    (hcong : ∀ st a, a ≠ B → beh st a = beh' st a)
    (hnr : ∀ st a, NoReadd B (beh st a)) (hnrh : ∀ n, NoReadd B (hook n))
    (stages : List Stage) :
    ∀ w : World, B ∉ w.agents → runStages beh hook stages w = runStages beh' hook stages w := by
  induction stages with
  | nil => intro w _; rfl
  | cons st rest ih =>
    intro w hB
    cases st with
    | agentStage n =>
      simp only [runStages]
      rw [← runAgents_congrB (beh n) (beh' n) B (fun a ha => hcong n a ha)
        (fun a => hnr n a) w.agents w hB]
      rcases hb : runAgents (beh n) w.agents w with ⟨w', err⟩
      have hB' : B ∉ w'.agents := by
        have := runAgents_noReadd (beh n) B (fun a => hnr n a) w.agents w hB
        rw [hb] at this
        exact this
      cases err
      · exact ih w' hB'
      · rfl
    | modelStage n =>
      simp only [runStages]
      rcases hb : hook n w with ⟨w', err⟩
      have hB' : B ∉ w'.agents := by
        have := hnrh n w hB
        rw [hb] at this
        exact this
      cases err
      · exact ih w' hB'
      · rfl

theorem runAgents_appendOnly (beh : Nat → Beh) (hao : ∀ a, AppendOnly (beh a))
    (l : List Nat) :
    ∀ w : World, ∃ t, (runAgents beh l w).1.log = w.log ++ t := by
  induction l with
  | nil => intro w; exact ⟨[], by simp [runAgents]⟩
  | cons a rest ih =>
    intro w
    simp only [runAgents]
    by_cases ha : a ∈ w.agents
    · rw [if_pos ha]
      rcases hb : beh a w with ⟨w', err⟩
      have h0 : ∃ t0, w'.log = w.log ++ t0 := by
        have := hao a w
        rw [hb] at this
        exact this
      obtain ⟨t0, ht0⟩ := h0
      cases err
      · obtain ⟨t1, ht1⟩ := ih w'
        exact ⟨t0 ++ t1, by rw [ht1, ht0, List.append_assoc]⟩
      · exact ⟨t0, ht0⟩
    · rw [if_neg ha]
      exact ih w

theorem runStages_appendOnly (beh : Nat → Nat → Beh) (hook : Nat → Beh)
    (hao : ∀ st a, AppendOnly (beh st a)) (haoh : ∀ n, AppendOnly (hook n))
    (stages : List Stage) :
    ∀ w : World, ∃ t, (runStages beh hook stages w).1.log = w.log ++ t := by
  induction stages with
  | nil => intro w; exact ⟨[], by simp [runStages]⟩
  | cons st rest ih =>
    intro w
    cases st with
    | agentStage n =>
      simp only [runStages]
      rcases hb : runAgents (beh n) w.agents w with ⟨w', err⟩
      have h0 : ∃ t0, w'.log = w.log ++ t0 := by
        have := runAgents_appendOnly (beh n) (fun a => hao n a) w.agents w
        rw [hb] at this
        exact this
      obtain ⟨t0, ht0⟩ := h0
      cases err
      · obtain ⟨t1, ht1⟩ := ih w'
        exact ⟨t0 ++ t1, by rw [ht1, ht0, List.append_assoc]⟩
      · exact ⟨t0, ht0⟩
    | modelStage n =>
      simp only [runStages]
      rcases hb : hook n w with ⟨w', err⟩
      have h0 : ∃ t0, w'.log = w.log ++ t0 := by
        have := haoh n w
        rw [hb] at this
        exact this
      obtain ⟨t0, ht0⟩ := h0
      cases err
      · obtain ⟨t1, ht1⟩ := ih w'
        exact ⟨t0 ++ t1, by rw [ht1, ht0, List.append_assoc]⟩
      · exact ⟨t0, ht0⟩

/-- C1: intra-tick removal, for all three agent-traversing policies.  The
tick body of Sequential and Randomized is `runAgents` over the snapshot of
the (for Randomized, freshly shuffled) registry; a staged tick is
`runStages`, each agent-level stage being `runAgents` over its own
snapshot.  The conjuncts state: (1) if, by the time agent `B`'s turn in the
snapshot comes, an earlier agent's behavior has removed `B` from the
registry, `B` is skipped and the traversal continues from the same state —
`B`'s behavior is not invoked at its turn; (2) the remainder of such a
traversal never invokes `B`'s behavior at all: any two behavior tables
agreeing outside `B` produce identical results from any `B`-free state,
provided no behavior re-adds `B`; (3) likewise for all remaining stages of
a staged tick (model hooks also not re-adding `B`); (4) and (5) when all
behaviors and hooks only append to the model log, the remainder of the tick
only appends — so log entries `B` made before being removed remain in the
final log. -/
theorem claim_C1 :
    (∀ (beh : Nat → Beh) (B : Nat) (l₁ l₂ : List Nat) (w w₁ : World),
      runAgents beh l₁ w = (w₁, none) → B ∉ w₁.agents →
      runAgents beh (l₁ ++ B :: l₂) w = runAgents beh l₂ w₁) ∧
    (∀ (beh beh' : Nat → Beh) (B : Nat) (l : List Nat) (w : World),
      (∀ a, a ≠ B → beh a = beh' a) → (∀ a, NoReadd B (beh a)) → B ∉ w.agents →
      runAgents beh l w = runAgents beh' l w) ∧
    (∀ (beh beh' : Nat → Nat → Beh) (hook : Nat → Beh) (B : Nat)
      (stages : List Stage) (w : World),
      (∀ st a, a ≠ B → beh st a = beh' st a) → (∀ st a, NoReadd B (beh st a)) →
      (∀ n, NoReadd B (hook n)) → B ∉ w.agents →
      runStages beh hook stages w = runStages beh' hook stages w) ∧
    (∀ (beh : Nat → Nat → Beh) (hook : Nat → Beh) (stages : List Stage) (w : World),
      (∀ st a, AppendOnly (beh st a)) → (∀ n, AppendOnly (hook n)) →
      ∃ t, (runStages beh hook stages w).1.log = w.log ++ t) ∧
    (∀ (beh : Nat → Beh) (l : List Nat) (w : World),
      (∀ a, AppendOnly (beh a)) →
      ∃ t, (runAgents beh l w).1.log = w.log ++ t) := by
  refine ⟨?_, ?_, ?_, ?_, ?_⟩
  · intro beh B l₁ l₂ w w₁ h1 hB
    rw [runAgents_append, h1]
    simp [runAgents, hB]
  · intro beh beh' B l w hcong hnr hB
    exact runAgents_congrB beh beh' B hcong hnr l w hB
  · intro beh beh' hook B stages w hcong hnr hnrh hB
    exact runStages_congrB beh beh' hook B hcong hnr hnrh stages w hB
  · intro beh hook stages w hao haoh
    exact runStages_appendOnly beh hook hao haoh stages w
  · intro beh l w hao
    exact runAgents_appendOnly beh hao l w

/-- C1 witness: the kill-test scenario.  Agent 1's killing behavior removes
agent 2 during the traversal `[1, 2]`; agent 2 is skipped at its turn
(conjunct 1); the remainder of the traversal and the remaining stages give
the same result whether or not agent 2's behavior is replaced by a raising
one, i.e. agent 2's behavior is never invoked (conjuncts 2 and 3); the
logging behaviors only append, so earlier log entries survive the rest of
the tick (conjuncts 4 and 5). -/
theorem claim_C1_witness :
    (runAgents behKillStep ([1] ++ 2 :: []) ⟨[1, 2], []⟩ =
      runAgents behKillStep [] ⟨[1], [Entry.stepped 1]⟩) ∧
    (runAgents behKillStep [2] ⟨[1], [Entry.stepped 1]⟩ =
      runAgents (fun a => if a = 2 then behFail 9 a else behKillStep a) [2]
        ⟨[1], [Entry.stepped 1]⟩) ∧
    (runStages (fun _st a => behKillStep a) hookLog stagesC6 ⟨[1], []⟩ =
      runStages (fun _st a => if a = 2 then behFail 9 a else behKillStep a) hookLog
        stagesC6 ⟨[1], []⟩) ∧
    (∃ t, (runStages behLogStage hookLog stagesC6 ⟨[1], [Entry.stepped 9]⟩).1.log =
      [Entry.stepped 9] ++ t) ∧
    (∃ t, (runAgents behLogStep [1, 2] ⟨[1, 2], []⟩).1.log = [] ++ t) :=
  ⟨claim_C1.1 behKillStep 2 [1] [] ⟨[1, 2], []⟩ ⟨[1], [Entry.stepped 1]⟩
      (by decide) (by decide),
    claim_C1.2.1 behKillStep (fun a => if a = 2 then behFail 9 a else behKillStep a) 2
      [2] ⟨[1], [Entry.stepped 1]⟩
      (fun a ha => by simp [ha])
      (fun a w hw hc => hw (List.mem_filter.mp hc).1)
      (by decide),
    claim_C1.2.2.1 (fun _st a => behKillStep a)
      (fun _st a => if a = 2 then behFail 9 a else behKillStep a) hookLog 2
      stagesC6 ⟨[1], []⟩
      (fun _st a ha => by simp [ha])
      (fun _st a w hw hc => hw (List.mem_filter.mp hc).1)
      (fun _n _w hw => hw)
      (by decide),
    claim_C1.2.2.2.1 behLogStage hookLog stagesC6 ⟨[1], [Entry.stepped 9]⟩
      (fun st a w => ⟨[Entry.stageEntry a st], rfl⟩)
      (fun n w => ⟨[Entry.hookEntry n], rfl⟩),
    claim_C1.2.2.2.2 behLogStep [1, 2] ⟨[1, 2], []⟩
      (fun a w => ⟨[Entry.stepped a], rfl⟩)⟩
